import Mathlib

/-!
Verification development for the repo-explainer backend
(`backend/ai_service.py`, `backend/prompts.py`, `backend/github_tools.py`).

The Python functions are shallowly embedded as executable Lean definitions:
strings are Lean `String`s (lists of unicode code points, matching CPython
`str` semantics for the operations used), Python exceptions are modelled with
`Except String`, and the dynamically-typed value returned by
`fetch_directory_tree_with_depth` (declared `-> str` but returning a `list`
on HTTP 409) is modelled by an explicit sum type `PyVal`.
-/

namespace RepoExplainer

/-! ### Definitions: shallow embedding of the Python sources -/

/-- Python `str.split('/')`: `"".split('/') == [""]`, separators produce
empty fields. -/
def splitSlash : List Char → List (List Char)
  | [] => [[]]
  | c :: cs =>
    if c = '/' then [] :: splitSlash cs
    else
      match splitSlash cs with
      | [] => [[c]]
      | p :: ps => (c :: p) :: ps

/-- Python `"/".join(parts)` (each part given as a character list). -/
def joinSlash : List (List Char) → List Char
  | [] => []
  | [p] => p
  | p :: ps => p ++ '/' :: joinSlash ps

/-- The `while len(parts) > 1 and parts[0] == parts[1]: del parts[1]` loop of
`_normalize_llm_path`: repeatedly deletes the second element while the first
two are equal. -/
def collapseDup : List (List Char) → List (List Char)
  | a :: b :: rest => if a = b then collapseDup (a :: rest) else a :: b :: rest
  | l => l
  termination_by l => l.length

/-- Python `str.rstrip("/")` on a character list. -/
def rstripSlash (l : List Char) : List Char :=
  (l.reverse.dropWhile (· = '/')).reverse

/-- The `while path.startswith(prefix_slash): path = path[len(prefix_slash):]`
loop of `_normalize_llm_path`.  The `pre ≠ []` conjunct only serves
termination: the caller always passes `prefix_slash`, which ends in `'/'` and
is therefore never empty. -/
def stripPrefixLoop (pre p : List Char) : List Char :=
  if h : pre ≠ [] ∧ pre.isPrefixOf p then
    stripPrefixLoop pre (p.drop pre.length)
  else p
  termination_by p.length
  decreasing_by
    have hle : pre.length ≤ p.length := (List.isPrefixOf_iff_prefix.mp h.2).length_le
    have hpos : 0 < pre.length := List.length_pos.mpr h.1
    simp only [List.length_drop]
    omega

/-- Embedding of `_normalize_llm_path` (`backend/ai_service.py`).
Step 1 strips a leading `repo_prefix.rstrip("/") + "/"` occurrence as long as
the path starts with it; step 2 splits on `/`, drops empty segments, collapses
duplicated leading segments and rejoins. -/
def normalize_llm_path (path : String) (repoPrefix : String) : String :=
  let p₁ :=
    if repoPrefix.data ≠ [] then
      stripPrefixLoop (rstripSlash repoPrefix.data ++ ['/']) path.data
    else path.data
  let parts := (splitSlash p₁).filter (· ≠ [])
  String.mk (joinSlash (collapseDup parts))

/-- Characters treated as whitespace by CPython's `str.strip()` / `str.isspace`
(and by `re`'s `\s` on `str`), restricted to the Latin-1 range; the exotic
unicode space code points (U+2000…, U+2028/29, …) are included as well so the
embedding matches CPython on all inputs appearing in this development. -/
def pyIsSpace (c : Char) : Bool :=
  c = ' ' ∨ c = '\t' ∨ c = '\n' ∨ c = '\r' ∨ c = '\x0b' ∨ c = '\x0c' ∨
  c = '\x1c' ∨ c = '\x1d' ∨ c = '\x1e' ∨ c = '\x1f' ∨ c = '\x85' ∨ c = '\xa0' ∨
  c = ' ' ∨ (' ' ≤ c ∧ c ≤ ' ') ∨ c = ' ' ∨ c = ' ' ∨
  c = ' ' ∨ c = ' ' ∨ c = '　'

/-- Python `str.strip()` on a character list: drop whitespace from both
ends. -/
def pyStrip (l : List Char) : List Char :=
  ((l.dropWhile pyIsSpace).reverse.dropWhile pyIsSpace).reverse

/-- The two concrete `LLMProvider` implementations
(`backend/ai/providers/claude.py`, `backend/ai/providers/gemini.py`).  Neither
constructor can raise: `__init__` only stores an API key string. -/
inductive Provider where
  | claude
  | gemini
deriving DecidableEq

/-- Python `str.lower()` on a character list (`Char.toLower` matches CPython
on the ASCII provider names involved here). -/
def pyLower (l : List Char) : List Char :=
  l.map Char.toLower

/-- `provider_name = (env.AI_PROVIDER or "claude").strip().lower()`:
an empty (falsy) `AI_PROVIDER` is replaced by `"claude"` before
stripping/lowercasing. -/
def resolveProviderName (envAIProvider : String) : String :=
  String.mk (pyLower (pyStrip (if envAIProvider = "" then "claude" else envAIProvider).data))

/-- One call to `_get_provider` (`backend/ai_service.py`): the module-global
`_provider` cache is modelled as explicit state `st`; the function returns the
chosen provider together with the new cache state. -/
def getProviderStep (st : Option Provider) (envAIProvider : String) :
    Provider × Option Provider :=
  match st with
  | some p => (p, some p)
  | none =>
    let name := resolveProviderName envAIProvider
    if name = "gemini" then (.gemini, some .gemini)
    else if name = "claude" then (.claude, some .claude)
    else (.claude, some .claude)

/-- Python `str.splitlines()`: splits at `\n`, `\r`, `\r\n` and the other
unicode line boundaries, with no trailing empty line. -/
def pySplitlines : List Char → List (List Char)
  | [] => []
  | '\r' :: '\n' :: cs => [] :: pySplitlines cs
  | c :: cs =>
    if c = '\n' ∨ c = '\r' ∨ c = '\x0b' ∨ c = '\x0c' ∨ c = '\x1c' ∨ c = '\x1d' ∨
        c = '\x1e' ∨ c = '\x85' ∨ c = ' ' ∨ c = ' ' then
      [] :: pySplitlines cs
    else
      match pySplitlines cs with
      | [] => [[c]]
      | p :: ps => (c :: p) :: ps

/-- A `\w` character of Python `re` (ASCII part: the language tags after a
code fence are alphanumeric). -/
def isWordChar (c : Char) : Bool :=
  c.isAlphanum || c = '_'

/-- `re.sub(r"^```\w*\n?", "", raw)`: remove a leading fence, an optional
language tag and at most one following newline.  When `raw` does not start
with a fence the substitution leaves it unchanged. -/
def stripLeadingFence (raw : List Char) : List Char :=
  match raw with
  | '`' :: '`' :: '`' :: rest =>
    match rest.dropWhile isWordChar with
    | '\n' :: rest' => rest'
    | rest' => rest'
  | _ => raw

/-- `re.sub(r"\n?```\s*$", "", raw)`: a match is an optional newline, the
three backticks and a whitespace-only tail; no match leaves `raw`
unchanged. -/
def stripTrailingFence (raw : List Char) : List Char :=
  match raw.reverse.dropWhile pyIsSpace with
  | '`' :: '`' :: '`' :: '\n' :: rest => rest.reverse
  | '`' :: '`' :: '`' :: rest => rest.reverse
  | _ => raw

/-- `re.sub(r"^[\-\*]\s+", "", line)`: strip a leading `-` or `*` bullet
marker followed by at least one whitespace character (greedy). -/
def stripBullet : List Char → List Char
  | c :: c₂ :: rest =>
    if (c = '-' ∨ c = '*') ∧ pyIsSpace c₂ then (c₂ :: rest).dropWhile pyIsSpace
    else c :: c₂ :: rest
  | l => l

/-- The per-line body of the `for line in raw.splitlines()` loop:
`none` when the line is skipped, `some` the kept path otherwise. -/
def lineKeep (line : List Char) : Option String :=
  match pyStrip line with
  | [] => none
  | c :: cs =>
    if c = '#' ∨ c = '<' then none
    else
      let l₂ := pyStrip (stripBullet (c :: cs))
      if l₂ ≠ [] ∧ ' ' ∉ l₂ then some (String.mk l₂) else none

/-- Embedding of `parse_paths_from_response` (`backend/prompts.py`). -/
def parse_paths_from_response (text : String) : List String :=
  if text.data = [] ∨ pyStrip text.data = [] then []
  else
    let raw := pyStrip text.data
    let raw :=
      if ("```".data).isPrefixOf raw then stripTrailingFence (stripLeadingFence raw)
      else raw
    (pySplitlines raw).filterMap lineKeep

inductive PyNode where
  | mk (ty : String) (children : List (String × PyNode))

def PyNode.ty : PyNode → String
  | .mk t _ => t

def PyNode.children : PyNode → List (String × PyNode)
  | .mk _ c => c

/-- Python dict lookup `d[k]` / `d.get(k)` on the association list. -/
def dictGet (d : List (String × PyNode)) (k : String) : Option PyNode :=
  (d.find? (fun e => e.1 = k)).map (·.2)

/-- Python dict assignment `d[k] = v`: updates in place (keeping insertion
order) or appends a new key. -/
def dictSet : List (String × PyNode) → String → PyNode → List (String × PyNode)
  | [], k, v => [(k, v)]
  | (k', v') :: rest, k, v =>
    if k' = k then (k, v) :: rest else (k', v') :: dictSet rest k v

/-- The inner `for i, part in enumerate(path_parts)` loop of
`_build_hierarchical_tree`, for one entry `(path parts, type)`: empty
segments are skipped; the last segment becomes a leaf `{"_type": ty}`
(overwriting whatever was there); an intermediate segment is kept if it is
already a `tree`/`dir` node and is otherwise (re)created as an empty `tree`
node, and the walk continues in its children. -/
def insertParts (lvl : List (String × PyNode)) : List String → String →
    List (String × PyNode)
  | [], _ => lvl
  | part :: rest, ty =>
    if part = "" then insertParts lvl rest ty
    else if rest = [] then dictSet lvl part (.mk ty [])
    else
      let node :=
        match dictGet lvl part with
        | none => PyNode.mk "tree" []
        | some n => if n.ty = "tree" ∨ n.ty = "dir" then n else PyNode.mk "tree" []
      dictSet lvl part (.mk node.ty (insertParts node.children rest ty))

/-- Embedding of `_build_hierarchical_tree`: a flat tree entry is a
`(path, type)` pair; `item.get("path", "").split('/')` is `splitSlash` on the
path's characters. -/
def build_hierarchical_tree (flat : List (String × String)) :
    List (String × PyNode) :=
  flat.foldl
    (fun acc item => insertParts acc ((splitSlash item.1.data).map String.mk) item.2) []

/-- Stable insertion of a pair into a key-sorted association list. -/
def insertPairSorted (x : String × PyNode) :
    List (String × PyNode) → List (String × PyNode)
  | [] => [x]
  | y :: ys => if x.1 ≤ y.1 then x :: y :: ys else y :: insertPairSorted x ys

/-- `sorted(tree_node.keys())` followed by the `tree_node[name]` lookups of
`_format_tree_recursively`: on a dict (unique keys) this equals sorting the
pairs by key. -/
def sortPairs : List (String × PyNode) → List (String × PyNode)
  | [] => []
  | x :: xs => insertPairSorted x (sortPairs xs)

theorem sizeOf_insertPairSorted (x : String × PyNode)
    (l : List (String × PyNode)) :
    sizeOf (insertPairSorted x l) = sizeOf (x :: l) := by
  induction l with
  | nil => rfl
  | cons y ys ih =>
    simp only [insertPairSorted]
    split
    · rfl
    · simp only [List.cons.sizeOf_spec, ih]
      omega

theorem sizeOf_sortPairs (l : List (String × PyNode)) :
    sizeOf (sortPairs l) = sizeOf l := by
  induction l with
  | nil => rfl
  | cons x xs ih =>
    simp only [sortPairs, sizeOf_insertPairSorted, List.cons.sizeOf_spec, ih]

theorem sizeOf_children_lt (nd : PyNode) : sizeOf nd.children < sizeOf nd := by
  cases nd with
  | mk ty ch => simp only [PyNode.children, PyNode.mk.sizeOf_spec]; omega

/-- Embedding of `_format_tree_recursively`.  The two phases of the Python
function are fused into one recursive definition switched by the first
argument: phase `true` is function entry (depth cut-off check, then the
sorted iteration), phase `false` is the `for i, name in enumerate(...)` loop
over the (already sorted) remaining items, in which `rest.isEmpty` plays the
role of `i == len - 1`. -/
def fmtTree : Bool → List (String × PyNode) → String → Nat → Option Int →
    List String
  | true, d, pre, depth, md =>
    (match md with
     | some m => if (depth : Int) ≥ m then [] else fmtTree false (sortPairs d) pre depth md
     | none => fmtTree false (sortPairs d) pre depth md)
  | false, [], _, _, _ => []
  | false, (name, nd) :: rest, pre, depth, md =>
    let isLast := rest.isEmpty
    let connector := if isLast then "└── " else "├── "
    let isDir := nd.ty == "tree"
    let line := pre ++ connector ++ name ++ (if isDir then "/" else "")
    let sub :=
      if isDir && !nd.children.isEmpty then
        fmtTree true nd.children (pre ++ (if isLast then "    " else "│   "))
          (depth + 1) md
      else []
    line :: (sub ++ fmtTree false rest pre depth md)
  termination_by b d _ _ _ => 2 * sizeOf d + (if b then 1 else 0)
  decreasing_by
  all_goals simp only [sizeOf_sortPairs, List.cons.sizeOf_spec, Prod.mk.sizeOf_spec]
  all_goals simp
  all_goals try omega
  all_goals (have h1 := sizeOf_children_lt nd; omega)

/-- Depth-instrumented copy of `fmtTree`: each emitted line is paired with
its nesting depth (`current_depth + 1`; the root's direct children sit at
depth 1).  `fmtTree_eq_fmtTreeD` proves it is the same function with the
depths erased. -/
def fmtTreeD : Bool → List (String × PyNode) → String → Nat → Option Int →
    List (Nat × String)
  | true, d, pre, depth, md =>
    (match md with
     | some m => if (depth : Int) ≥ m then [] else fmtTreeD false (sortPairs d) pre depth md
     | none => fmtTreeD false (sortPairs d) pre depth md)
  | false, [], _, _, _ => []
  | false, (name, nd) :: rest, pre, depth, md =>
    let isLast := rest.isEmpty
    let connector := if isLast then "└── " else "├── "
    let isDir := nd.ty == "tree"
    let line := pre ++ connector ++ name ++ (if isDir then "/" else "")
    let sub :=
      if isDir && !nd.children.isEmpty then
        fmtTreeD true nd.children (pre ++ (if isLast then "    " else "│   "))
          (depth + 1) md
      else []
    (depth + 1, line) :: (sub ++ fmtTreeD false rest pre depth md)
  termination_by b d _ _ _ => 2 * sizeOf d + (if b then 1 else 0)
  decreasing_by
  all_goals simp only [sizeOf_sortPairs, List.cons.sizeOf_spec, Prod.mk.sizeOf_spec]
  all_goals simp
  all_goals try omega
  all_goals (have h1 := sizeOf_children_lt nd; omega)

/-- Embedding of `format_github_tree_structure` (`backend/github_tools.py`),
producing the `lines` list the Python function joins with `"\n"`. -/
def format_github_tree_structure_lines (flat : List (String × String))
    (repoNameWithOwner : String) (maxDepth : Option Int) : List String :=
  if flat = [] then
    ["Directory structure:",
     "└── " ++ repoNameWithOwner ++ "/",
     "    (Repository is empty or tree data not available)"]
  else
    match maxDepth with
    | some m =>
      if m < 0 then
        ["Directory structure:", "└── " ++ repoNameWithOwner ++ "/"]
      else
        ["Directory structure:", "└── " ++ repoNameWithOwner ++ "/"]
          ++ fmtTree true (build_hierarchical_tree flat) "    " 0 (some (m - 1))
    | none =>
      ["Directory structure:", "└── " ++ repoNameWithOwner ++ "/"]
        ++ fmtTree true (build_hierarchical_tree flat) "    " 0 none

/-- `format_github_tree_structure` as the final joined string. -/
def format_github_tree_structure (flat : List (String × String))
    (repoNameWithOwner : String) (maxDepth : Option Int) : String :=
  String.intercalate "\n" (format_github_tree_structure_lines flat repoNameWithOwner maxDepth)

/-- A Python value that is either a `str` or a `list`:
`fetch_directory_tree_with_depth` is annotated `-> str` but returns the bare
list `[]` on HTTP 409. -/
inductive PyVal where
  | str (s : String)
  | list (xs : List (String × String))

/-- `GitHubTools.IMPORTANT_FILES`, in priority order. -/
def IMPORTANT_FILES : List String :=
  ["README.md", "package.json", "requirements.txt", "go.mod", "Cargo.toml",
   "pom.xml", "build.gradle", "setup.py", "pyproject.toml", ".env.example",
   "Dockerfile", "docker-compose.yml", "Makefile", "LICENSE",
   "CONTRIBUTING.md", "package-lock.json", "yarn.lock", "Pipfile"]

/-- `GitHubTools.MAX_TOTAL_CHARS`. -/
def MAX_TOTAL_CHARS : Nat := 100000

/-- The status dispatch of `fetch_directory_tree_with_depth` once the tree
response arrived (lines 357–378): 404 raises `GitHubApiError`, 409 (empty
repository) returns the Python *list* `[]` — not a string —, other error
statuses raise via `raise_for_status`, and a 2xx formats the entries.
Exception messages are abridged to their leading fixed text. -/
def fetch_directory_tree_result (status : Nat) (entries : List (String × String))
    (repoLabel : String) (depth : Option Int) : Except String PyVal :=
  if status = 404 then
    .error "Tree or ref not found. Or repository is private/inaccessible."
  else if status = 409 then
    .ok (.list [])
  else if 400 ≤ status then
    .error "GitHub API HTTP error fetching tree"
  else
    .ok (.str (format_github_tree_structure entries repoLabel depth))

/-- Python `len()` of the dynamically-typed tree value. -/
def pyLen : PyVal → Nat
  | .str s => s.length
  | .list xs => xs.length

/-- `if len(tree) > 10000: tree = "(Tree content cropped to 10k characters)\n"
+ tree[:10000]`.  On an oversized `list` value the `str + list` concatenation
would itself raise a `TypeError`. -/
def cropTree : PyVal → Except String PyVal
  | .str s =>
    if s.length > 10000 then
      .ok (.str ("(Tree content cropped to 10k characters)\n"
        ++ String.mk (s.data.take 10000)))
    else .ok (.str s)
  | .list xs =>
    if xs.length > 10000 then
      .error "can only concatenate str (not \"list\") to str"
    else .ok (.list xs)

/-- `tree + "\n"`: concatenating a `list` with a `str` raises `TypeError`
(with CPython's message). -/
def pyAddNewline : PyVal → Except String String
  | .str s => .ok (s ++ "\n")
  | .list _ => .error "can only concatenate list (not \"str\") to list"

/-- The 48-character `=` separator of a `FILE:` section. -/
def sepLine : String := String.mk (List.replicate 48 '=')

/-- One `FILE:` section of the assembled context document. -/
def fileSection (filename content : String) : String :=
  sepLine ++ "\nFILE: " ++ filename
    ++ "\n" ++ sepLine ++ "\n" ++ content ++ "\n"

/-- The truncation notice appended when the running total has exceeded the
budget. -/
def cropNotice : String := "(Files content cropped to 100k characters)\n"

/-- The result-combining loop of `get_repo_context` (step 4): entries are the
pairs of `zip(files_to_fetch, results)`.  `if success and content:` skips
failed fetches and empty contents alike; the budget test compares the running
total accumulated *before* this entry, and on `total > MAX_TOTAL_CHARS`
appends the notice and breaks. -/
def combineLoop : List (String × (Option String × Bool)) → Nat → List String
  | [], _ => []
  | (fn, (some c, true)) :: rest, total =>
    if c ≠ "" then
      if total > MAX_TOTAL_CHARS then [cropNotice]
      else fileSection fn c :: combineLoop rest (total + c.length)
    else combineLoop rest total
  | (_, (none, _)) :: rest, total => combineLoop rest total
  | (_, (some _, false)) :: rest, total => combineLoop rest total

/-- The `try:` body of `get_repo_context`, producing the `context_parts` list
and the success flag, or the in-flight exception.  Early `return`s produce
their message as a singleton part (joining a singleton is the identity). -/
def get_repo_context_run (treeOutcome : Except String PyVal)
    (rootListing : Option (List String) × Bool)
    (fetch : String → Option String × Bool) :
    Except String (List String × Bool) :=
  match treeOutcome with
  | .error e => .error e
  | .ok tree₀ =>
    match cropTree tree₀ with
    | .error e => .error e
    | .ok tree =>
      match pyAddNewline tree with
      | .error e => .error e
      | .ok part0 =>
        let totalChars := pyLen tree
        if rootListing.2 = false ∨ rootListing.1.getD [] = [] then
          .ok (["Error with getting files at root directory"], false)
        else
          let files_at_root := rootListing.1.getD []
          let files_to_fetch := IMPORTANT_FILES.filter
            (fun f => files_at_root.contains f)
          if files_to_fetch = [] then
            .ok (["No key documentation files found in root."], true)
          else
            .ok (part0 :: combineLoop
              (files_to_fetch.zip (files_to_fetch.map fetch)) totalChars, true)

/-- `get_repo_context`: the joined document and success flag; the enclosing
`except` handler turns an exception into `(str(e), False)`. -/
def get_repo_context (treeOutcome : Except String PyVal)
    (rootListing : Option (List String) × Bool)
    (fetch : String → Option String × Bool) : String × Bool :=
  match get_repo_context_run treeOutcome rootListing fetch with
  | .ok (parts, ok) => (String.intercalate "\n" parts, ok)
  | .error e => (e, false)

/-- The `(filename, content)` pairs actually appended by `combineLoop`. -/
def includedFiles : List (String × (Option String × Bool)) → Nat →
    List (String × String)
  | [], _ => []
  | (fn, (some c, true)) :: rest, total =>
    if c ≠ "" then
      if total > MAX_TOTAL_CHARS then []
      else (fn, c) :: includedFiles rest (total + c.length)
    else includedFiles rest total
  | (_, (none, _)) :: rest, total => includedFiles rest total
  | (_, (some _, false)) :: rest, total => includedFiles rest total

/-- Whether `combineLoop` appends the truncation notice. -/
def hitsCap : List (String × (Option String × Bool)) → Nat → Bool
  | [], _ => false
  | (_, (some c, true)) :: rest, total =>
    if c ≠ "" then
      if total > MAX_TOTAL_CHARS then true
      else hitsCap rest (total + c.length)
    else hitsCap rest total
  | (_, (none, _)) :: rest, total => hitsCap rest total
  | (_, (some _, false)) :: rest, total => hitsCap rest total

/-- A file whose content is longer than the whole budget. -/
def bigContent : String := String.mk (List.replicate 100001 'a')

/-- The five-file scenario of the spec: three fetches succeed with content,
two return not-found. -/
def partialFetch : String → Option String × Bool :=
  fun f =>
    if f = "README.md" then (some "readme", true)
    else if f = "requirements.txt" then (some "reqs", true)
    else if f = "Cargo.toml" then (some "cargo", true)
    else (none, false)

/-- The root listing of the five-file scenario. -/
def fiveFiles : List String :=
  ["README.md", "package.json", "requirements.txt", "go.mod", "Cargo.toml"]

/-- A part counts as a `FILE:` section when it starts with the section
separator and the `FILE: ` label. -/
def isFileSection (s : String) : Bool :=
  (sepLine ++ "\nFILE: ").data.isPrefixOf s.data

/-- The five-file scenario with one *successful but empty* fetch. -/
def partialFetchEmpty : String → Option String × Bool :=
  fun f =>
    if f = "README.md" then (some "readme", true)
    else if f = "requirements.txt" then (some "", true)
    else if f = "Cargo.toml" then (some "cargo", true)
    else (none, false)

/-- A fetch in which the only important file present is empty-but-present. -/
def emptyFetch : String → Option String × Bool :=
  fun f => if f = "README.md" then (some "", true) else (none, false)

/-- A fetch in which every file is not-found. -/
def notFoundFetch : String → Option String × Bool :=
  fun _ => (none, false)

/-- The post-processing loop of `get_files_to_explore`: normalize each
LLM-suggested path, drop empties, and deduplicate keeping the first
occurrence (the Python `seen` set is modelled as the list of already-kept
paths). -/
def cleanLoop (repoPrefix : String) : List String → List String → List String
  | [], _ => []
  | p :: rest, seen =>
    let norm := normalize_llm_path p repoPrefix
    if norm = "" then cleanLoop repoPrefix rest seen
    else if norm ∈ seen then cleanLoop repoPrefix rest seen
    else norm :: cleanLoop repoPrefix rest (norm :: seen)

/-- The cleaned path list returned by `get_files_to_explore` on a parsed LLM
response. -/
def get_files_to_explore_clean (rawPaths : List String) (repoPrefix : String) :
    List String :=
  cleanLoop repoPrefix rawPaths []

/-- Modelled from the spec: the configured maximum length of the final fetch
list ("default bound: 25", spec §4.4); the merge step that enforces it is
described in the spec but implemented only by a superseded module that is not
among the sources under `src/`. -/
def MAX_FILES_TO_FETCH : Nat := 25

/-- First-occurrence deduplication with a `seen` accumulator. -/
def dedupFirstLoop : List String → List String → List String
  | [], _ => []
  | p :: rest, seen =>
    if p ∈ seen then dedupFirstLoop rest seen
    else p :: dedupFirstLoop rest (p :: seen)

/-- Modelled from the spec: "The combined sequence is deduplicated preserving
first occurrence" (spec §4.4). -/
def dedupFirst (l : List String) : List String :=
  dedupFirstLoop l []

/-- Modelled from the spec: the File Selection Policy merge (spec §4.4) — the
static important-file matches (in `IMPORTANT_FILES` priority order,
intersected with the root filename set as in `get_repo_context`) followed by
the cleaned LLM-suggested paths, deduplicated preserving first occurrence and
truncated to the configured maximum of 25. -/
def select_files_to_fetch (rootFiles : List String) (llmPaths : List String) :
    List String :=
  (dedupFirst ((IMPORTANT_FILES.filter (fun f => rootFiles.contains f))
    ++ llmPaths)).take MAX_FILES_TO_FETCH

/-! ### Theorems -/

theorem splitSlash_ne_nil (l : List Char) : splitSlash l ≠ [] := by
  induction l with
  | nil => simp [splitSlash]
  | cons c cs ih =>
    simp only [splitSlash]
    split
    · simp
    · match h : splitSlash cs with
      | [] => simp
      | p :: ps => simp

theorem no_slash_of_mem_splitSlash {l : List Char} {x : List Char}
    (hx : x ∈ splitSlash l) : '/' ∉ x := by
  induction l generalizing x with
  | nil =>
    simp only [splitSlash, List.mem_singleton] at hx
    simp [hx]
  | cons c cs ih =>
    simp only [splitSlash] at hx
    by_cases hc : c = '/'
    · rw [if_pos hc] at hx
      rcases List.mem_cons.mp hx with h | h
      · simp [h]
      · exact ih h
    · rw [if_neg hc] at hx
      match hs : splitSlash cs with
      | [] => exact absurd hs (splitSlash_ne_nil cs)
      | p :: ps =>
        rw [hs] at hx
        rcases List.mem_cons.mp hx with h | h
        · subst h
          intro hmem
          rcases List.mem_cons.mp hmem with h | h
          · exact hc h.symm
          · exact ih (hs ▸ List.mem_cons_self p ps) h
        · exact ih (hs ▸ List.mem_cons.mpr (Or.inr h))

theorem splitSlash_append_of_no_slash {x r : List Char} {q : List Char}
    {qs : List (List Char)} (hx : '/' ∉ x) (hr : splitSlash r = q :: qs) :
    splitSlash (x ++ r) = (x ++ q) :: qs := by
  induction x with
  | nil => simpa using hr
  | cons c cs ih =>
    have hc : c ≠ '/' := fun h => hx (h ▸ List.mem_cons_self c cs)
    have hcs : '/' ∉ cs := fun h => hx (List.mem_cons.mpr (Or.inr h))
    simp only [List.cons_append, splitSlash, if_neg hc]
    rw [show cs.append r = cs ++ r from rfl, ih hcs]

theorem filter_splitSlash_joinSlash (l : List (List Char))
    (h : ∀ x ∈ l, x ≠ [] ∧ '/' ∉ x) :
    (splitSlash (joinSlash l)).filter (· ≠ []) = l := by
  induction l with
  | nil => simp [joinSlash, splitSlash]
  | cons x xs ih =>
    obtain ⟨hx, hxs⟩ := h x (List.mem_cons_self x xs)
    match xs with
    | [] =>
      have : splitSlash (x ++ ([] : List Char)) = (x ++ []) :: [] :=
        splitSlash_append_of_no_slash hxs (by simp [splitSlash])
      simp only [joinSlash]
      rw [show x = x ++ ([] : List Char) by simp, this]
      simp [hx]
    | y :: ys =>
      have hrest : splitSlash ('/' :: joinSlash (y :: ys))
          = [] :: splitSlash (joinSlash (y :: ys)) := by
        simp [splitSlash]
      have : splitSlash (x ++ '/' :: joinSlash (y :: ys))
          = (x ++ []) :: splitSlash (joinSlash (y :: ys)) :=
        splitSlash_append_of_no_slash hxs hrest
      simp only [joinSlash, this, List.append_nil]
      rw [List.filter_cons_of_pos (by simpa using hx)]
      rw [ih (fun z hz => h z (List.mem_cons.mpr (Or.inr hz)))]

theorem collapseDup_nil : collapseDup [] = [] := by
  rw [collapseDup.eq_def]

theorem collapseDup_singleton (a : List Char) : collapseDup [a] = [a] := by
  rw [collapseDup.eq_def]

theorem collapseDup_cons_cons_self (b : List Char) (rest : List (List Char)) :
    collapseDup (b :: b :: rest) = collapseDup (b :: rest) := by
  rw [collapseDup, if_pos rfl]

theorem collapseDup_cons_cons_ne {a b : List Char} (rest : List (List Char))
    (hab : a ≠ b) : collapseDup (a :: b :: rest) = a :: b :: rest := by
  rw [collapseDup, if_neg hab]

theorem mem_of_mem_collapseDup {l : List (List Char)} {x : List Char}
    (hx : x ∈ collapseDup l) : x ∈ l := by
  induction l using collapseDup.induct with
  | case1 b rest ih =>
    rw [collapseDup_cons_cons_self] at hx
    rcases List.mem_cons.mp (ih hx) with h | h
    · exact List.mem_cons.mpr (Or.inl h)
    · exact List.mem_cons.mpr (Or.inr (List.mem_cons.mpr (Or.inr h)))
  | case2 a b rest hab =>
    rwa [collapseDup_cons_cons_ne rest hab] at hx
  | case3 l hl =>
    match l, hl with
    | [], _ => rwa [collapseDup_nil] at hx
    | [a], _ => rwa [collapseDup_singleton] at hx
    | a :: b :: rest, hl => exact absurd rfl (fun h => hl a b rest h)

theorem collapseDup_shape (l : List (List Char)) :
    collapseDup l = [] ∨ (∃ a, collapseDup l = [a]) ∨
      ∃ a b rest, collapseDup l = a :: b :: rest ∧ a ≠ b := by
  induction l using collapseDup.induct with
  | case1 b rest ih => rwa [collapseDup_cons_cons_self]
  | case2 a b rest hab =>
    exact Or.inr (Or.inr ⟨a, b, rest, collapseDup_cons_cons_ne rest hab, hab⟩)
  | case3 l hl =>
    match l, hl with
    | [], _ => exact Or.inl collapseDup_nil
    | [a], _ => exact Or.inr (Or.inl ⟨a, collapseDup_singleton a⟩)
    | a :: b :: rest, hl => exact absurd rfl (fun h => hl a b rest h)

theorem collapseDup_idem (l : List (List Char)) :
    collapseDup (collapseDup l) = collapseDup l := by
  rcases collapseDup_shape l with h | ⟨a, h⟩ | ⟨a, b, rest, h, hab⟩ <;> rw [h]
  · exact collapseDup_nil
  · exact collapseDup_singleton a
  · exact collapseDup_cons_cons_ne rest hab

theorem stripPrefixLoop_of_not_prefix {pre p : List Char}
    (h : ¬ pre.isPrefixOf p) : stripPrefixLoop pre p = p := by
  rw [stripPrefixLoop]
  simp [h]

theorem normalize_llm_path_data (p r : String) :
    (normalize_llm_path p r).data
      = joinSlash (collapseDup ((splitSlash
          (if r.data ≠ [] then
            stripPrefixLoop (rstripSlash r.data ++ ['/']) p.data
          else p.data)).filter (· ≠ []))) := rfl

theorem normalize_llm_path_parts_ok (p₁ : List Char) :
    ∀ x ∈ collapseDup ((splitSlash p₁).filter (· ≠ [])), x ≠ [] ∧ '/' ∉ x := by
  intro x hx
  have hmem := List.mem_filter.mp (mem_of_mem_collapseDup hx)
  exact ⟨by simpa using hmem.2, no_slash_of_mem_splitSlash hmem.1⟩

/-- C3 (amended): `_normalize_llm_path` is idempotent whenever its result does
not itself start again with `repo_prefix.rstrip("/") + "/"` — in particular
whenever `repo_prefix` is empty. -/
theorem normalize_llm_path_idem (p r : String)
    (h : r.data = [] ∨
      ¬ (rstripSlash r.data ++ ['/']).isPrefixOf (normalize_llm_path p r).data) :
    normalize_llm_path (normalize_llm_path p r) r = normalize_llm_path p r := by
  have hstep1 :
      (if r.data ≠ [] then
        stripPrefixLoop (rstripSlash r.data ++ ['/']) (normalize_llm_path p r).data
      else (normalize_llm_path p r).data) = (normalize_llm_path p r).data := by
    rcases h with h | h
    · rw [if_neg (by simp [h])]
    · split
      · exact stripPrefixLoop_of_not_prefix h
      · rfl
  show String.mk _ = _
  rw [hstep1, normalize_llm_path_data p r]
  rw [filter_splitSlash_joinSlash _ (normalize_llm_path_parts_ok _)]
  rw [collapseDup_idem]
  rw [← normalize_llm_path_data p r]

/-- Witness for `normalize_llm_path_idem` at a concrete input. -/
theorem normalize_llm_path_idem_witness :
    normalize_llm_path (normalize_llm_path "src/main.py" "") ""
      = normalize_llm_path "src/main.py" "" :=
  normalize_llm_path_idem "src/main.py" "" (Or.inl rfl)

/-- C3 (counterexample): the claimed idempotence fails on the code.  For
`p = "a/a/b/c"` and `r = "a/b"`, the first pass does not strip the prefix but
collapses the duplicated head segment, yielding `"a/b/c"`; the second pass then
strips the prefix `"a/b/"`, yielding `"c"`. -/
theorem normalize_llm_path_not_idempotent :
    normalize_llm_path (normalize_llm_path "a/a/b/c" "a/b") "a/b"
      ≠ normalize_llm_path "a/a/b/c" "a/b" := by
  have h1 : normalize_llm_path "a/a/b/c" "a/b" = "a/b/c" := by
    simp [normalize_llm_path, stripPrefixLoop, rstripSlash, splitSlash, joinSlash,
      collapseDup]
  have h2 : normalize_llm_path "a/b/c" "a/b" = "c" := by
    simp [normalize_llm_path, stripPrefixLoop, rstripSlash, splitSlash, joinSlash,
      collapseDup]
  rw [h1, h2]
  decide

/-- C7: concrete prefix-stripping results of `_normalize_llm_path`. -/
theorem normalize_llm_path_prefix_strip :
    normalize_llm_path "fastapi/fastapi/README.md" "fastapi/fastapi" = "README.md"
    ∧ normalize_llm_path "fastapi/fastapi/fastapi/utils.py" "fastapi/fastapi"
        = "fastapi/utils.py" := by
  constructor <;>
    simp [normalize_llm_path, stripPrefixLoop, rstripSlash, splitSlash, joinSlash,
      collapseDup]

/-- C9: for every `AI_PROVIDER` value whose trimmed lower-case form is neither
`"claude"` nor `"gemini"` (the empty string included), the first
`_get_provider` call returns the default Claude provider (it cannot raise: the
embedding is total and `ClaudeProvider.__init__` only stores a string), and
every subsequent call, whatever the environment then holds, returns the same
cached provider and leaves the cache unchanged. -/
theorem getProvider_default_and_cached (e : String)
    (hc : String.mk (pyLower (pyStrip e.data)) ≠ "claude")
    (hg : String.mk (pyLower (pyStrip e.data)) ≠ "gemini") :
    getProviderStep none e = (Provider.claude, some Provider.claude)
    ∧ ∀ e' : String,
        getProviderStep (getProviderStep none e).2 e' = getProviderStep none e := by
  have hfirst : getProviderStep none e = (Provider.claude, some Provider.claude) := by
    by_cases he : e = ""
    · subst he
      decide
    · have hname : resolveProviderName e = String.mk (pyLower (pyStrip e.data)) := by
        simp [resolveProviderName, he]
      simp only [getProviderStep, hname]
      rw [if_neg hg, if_neg hc]
  exact ⟨hfirst, fun e' => by rw [hfirst]; rfl⟩

/-- Witness for `getProvider_default_and_cached` at `AI_PROVIDER = "gpt-4"`. -/
theorem getProvider_default_and_cached_witness :
    getProviderStep none "gpt-4" = (Provider.claude, some Provider.claude)
    ∧ ∀ e' : String,
        getProviderStep (getProviderStep none "gpt-4").2 e'
          = getProviderStep none "gpt-4" :=
  getProvider_default_and_cached "gpt-4" (by decide) (by decide)

/-- C8: the parser tolerates code fences, bullet markers, blank lines and
comment lines. -/
theorem parse_paths_from_response_tolerant :
    parse_paths_from_response "```\nREADME.md\n- src/main.py\n\n# comment\n```"
      = ["README.md", "src/main.py"] := by
  decide

theorem fmtTree_eq_map_snd (b : Bool) (d : List (String × PyNode)) (pre : String)
    (dep : Nat) (md : Option Int) :
    fmtTree b d pre dep md = (fmtTreeD b d pre dep md).map Prod.snd := by
  induction b, d, pre, dep, md using fmtTreeD.induct with
  | case1 d pre depth m hcut => simp [fmtTree, fmtTreeD, hcut]
  | case2 d pre depth m hcut ih =>
    simp only [fmtTree, fmtTreeD, ih]
    rw [apply_ite (List.map Prod.snd)]
    simp
  | case3 d pre depth ih => simpa [fmtTree, fmtTreeD] using ih
  | case4 pre depth md => simp [fmtTree, fmtTreeD]
  | case5 name nd rest pre depth md isLast ihc ihr =>
    simp only [fmtTree, fmtTreeD, List.map_cons, List.map_append]
    rw [ihr]
    congr 1
    congr 1
    split
    · exact ihc
    · simp

theorem fmtTreeD_depth_le (b : Bool) (d : List (String × PyNode)) (pre : String)
    (dep : Nat) (md : Option Int) :
    ∀ m : Int, md = some m → (b = false → (dep : Int) < m) →
      ∀ p ∈ fmtTreeD b d pre dep md, (p.1 : Int) ≤ m := by
  induction b, d, pre, dep, md using fmtTreeD.induct with
  | case1 d pre depth m hcut =>
    intro m' hmd hpre p hp
    rw [fmtTreeD] at hp
    simp only [Option.some.injEq] at hmd
    subst hmd
    rw [if_pos (by exact_mod_cast hcut)] at hp
    exact absurd hp (List.not_mem_nil p)
  | case2 d pre depth m hcut ih =>
    intro m' hmd hpre p hp
    simp only [Option.some.injEq] at hmd
    subst hmd
    rw [fmtTreeD, if_neg (by exact_mod_cast hcut)] at hp
    exact ih m rfl (fun _ => by omega) p hp
  | case3 d pre depth ih =>
    intro m' hmd
    exact absurd hmd (by simp)
  | case4 pre depth md =>
    intro m' hmd hpre p hp
    rw [fmtTreeD] at hp
    exact absurd hp (List.not_mem_nil p)
  | case5 name nd rest pre depth md isLast ihc ihr =>
    intro m' hmd hpre p hp
    subst hmd
    have hdep : (depth : Int) < m' := hpre rfl
    rw [fmtTreeD] at hp
    rcases List.mem_cons.mp hp with h | h
    · rw [h]
      simpa using hdep
    · rcases List.mem_append.mp h with h' | h'
      · by_cases hc : (nd.ty == "tree" && !nd.children.isEmpty) = true
        · rw [if_pos hc] at h'
          exact ihc m' rfl (fun hfalse => by simp at hfalse) p h'
        · rw [if_neg hc] at h'
          exact absurd h' (List.not_mem_nil p)
      · exact ihr m' rfl (fun _ => hdep) p h'

/-- C5: with `max_depth = 0` the formatter renders only the header line and
the root-label line (plus, for an empty entry list, the fixed
"empty or unavailable" annotation line, which carries neither the root label
nor a tree entry); with `max_depth = N` every emitted child line sits at
nesting depth at most `N` (depth 1 being the root's direct children), as
witnessed by the depth-instrumented formatter `fmtTreeD`, whose erasure is
exactly the child-line block of the output. -/
theorem format_github_tree_structure_depth (flat : List (String × String))
    (root : String) :
    (format_github_tree_structure_lines flat root (some 0)
      = ["Directory structure:", "└── " ++ root ++ "/"]
        ++ (if flat = [] then ["    (Repository is empty or tree data not available)"]
            else []))
    ∧ (∀ N : Nat,
        format_github_tree_structure_lines flat root (some (N : Int))
          = ["Directory structure:", "└── " ++ root ++ "/"]
            ++ (if flat = [] then ["    (Repository is empty or tree data not available)"]
                else (fmtTreeD true (build_hierarchical_tree flat) "    " 0
                    (some ((N : Int) - 1))).map Prod.snd))
    ∧ (∀ N : Nat, ∀ p ∈ fmtTreeD true (build_hierarchical_tree flat) "    " 0
        (some ((N : Int) - 1)), p.1 ≤ N) := by
  have hgen : ∀ N : Nat,
      format_github_tree_structure_lines flat root (some (N : Int))
        = ["Directory structure:", "└── " ++ root ++ "/"]
          ++ (if flat = [] then ["    (Repository is empty or tree data not available)"]
              else (fmtTreeD true (build_hierarchical_tree flat) "    " 0
                  (some ((N : Int) - 1))).map Prod.snd) := by
    intro N
    rw [format_github_tree_structure_lines]
    by_cases hflat : flat = []
    · simp [hflat]
    · rw [if_neg hflat, if_neg hflat]
      rw [if_neg (by omega)]
      rw [fmtTree_eq_map_snd]
  refine ⟨?_, hgen, ?_⟩
  · have h0 := hgen 0
    rw [show ((0 : Nat) : Int) = 0 from rfl] at h0
    rw [h0]
    by_cases hflat : flat = []
    · simp [hflat]
    · rw [if_neg hflat, if_neg hflat]
      rw [fmtTreeD, if_pos (by norm_num)]
      simp
  · intro N p hp
    have := fmtTreeD_depth_le true (build_hierarchical_tree flat) "    " 0
      (some ((N : Int) - 1)) ((N : Int) - 1) rfl (fun h => nomatch h) p hp
    omega

/-- Witness for `format_github_tree_structure_depth`: a one-entry tree
rendered at `max_depth = 2` emits the single child line `"    └── a/"` at
nesting depth `1 ≤ 2`. -/
theorem format_github_tree_structure_depth_witness :
    format_github_tree_structure_lines [("a/b", "blob")] "r" (some 0)
        = ["Directory structure:", "└── r/"]
    ∧ (1, "    └── a/") ∈ fmtTreeD true (build_hierarchical_tree [("a/b", "blob")])
        "    " 0 (some (((2 : Nat) : Int) - 1))
    ∧ (1 : Nat) ≤ 2 := by
  obtain ⟨h0, hgen, hdep⟩ :=
    format_github_tree_structure_depth [("a/b", "blob")] "r"
  have hmem : (1, "    └── a/") ∈ fmtTreeD true
      (build_hierarchical_tree [("a/b", "blob")]) "    " 0
      (some (((2 : Nat) : Int) - 1)) := by
    norm_num [build_hierarchical_tree, insertParts, dictGet, dictSet, fmtTreeD,
      sortPairs, insertPairSorted, PyNode.ty, PyNode.children, splitSlash]
    decide
  exact ⟨by simpa using h0, hmem, hdep 2 (1, "    └── a/") hmem⟩

/-- C1 (code bug): a 409 (empty-repository) tree response makes
`fetch_directory_tree_with_depth` return the Python list `[]` although it is
annotated `-> str`; `get_repo_context` then raises `TypeError` at
`tree + "\n"`, which its blanket `except` turns into `ok=False` with the
`TypeError` text — not `ok=True` with an "empty repository" marker. -/
theorem get_repo_context_409_conflict (entries : List (String × String))
    (repoLabel : String) (depth : Option Int)
    (rootListing : Option (List String) × Bool)
    (fetch : String → Option String × Bool) :
    fetch_directory_tree_result 409 entries repoLabel depth = .ok (.list [])
    ∧ get_repo_context (fetch_directory_tree_result 409 entries repoLabel depth)
        rootListing fetch
      = ("can only concatenate list (not \"str\") to list", false) := by
  constructor
  · norm_num [fetch_directory_tree_result]
  · norm_num [fetch_directory_tree_result, get_repo_context,
      get_repo_context_run, cropTree, pyAddNewline]

theorem combineLoop_cons_some_true (fn c : String)
    (rest : List (String × (Option String × Bool))) (total : Nat) :
    combineLoop ((fn, (some c, true)) :: rest) total
      = if c ≠ "" then
          (if total > MAX_TOTAL_CHARS then [cropNotice]
           else fileSection fn c :: combineLoop rest (total + c.length))
        else combineLoop rest total := rfl

theorem combineLoop_cons_none (fn : String) (b : Bool)
    (rest : List (String × (Option String × Bool))) (total : Nat) :
    combineLoop ((fn, (none, b)) :: rest) total = combineLoop rest total := rfl

theorem combineLoop_cons_some_false (fn c : String)
    (rest : List (String × (Option String × Bool))) (total : Nat) :
    combineLoop ((fn, (some c, false)) :: rest) total
      = combineLoop rest total := rfl

/-- C2 (amended): the combine loop of `get_repo_context` emits exactly one
complete `FILE:` section per included file, followed by at most one truncation
notice with nothing after it; a file is appended only while the running total
(tree length plus the raw lengths of the previously appended contents) has not
yet exceeded `MAX_TOTAL_CHARS` — so the total before the *last* appended file
is within the budget, and the document can overshoot the budget by at most
that last file's content (plus section formatting); every included entry is a
successful, non-empty fetch, and files after the stopping point are omitted
entirely (none is partially included). -/
theorem combineLoop_budget (entries : List (String × (Option String × Bool)))
    (total : Nat) :
    (combineLoop entries total
      = (includedFiles entries total).map (fun p => fileSection p.1 p.2)
        ++ (if hitsCap entries total then [cropNotice] else []))
    ∧ (includedFiles entries total ≠ [] →
        total + (((includedFiles entries total).dropLast.map
          (fun p => p.2.length)).sum) ≤ MAX_TOTAL_CHARS)
    ∧ (∀ p ∈ includedFiles entries total,
        (p.1, (some p.2, true)) ∈ entries ∧ p.2 ≠ "") := by
  induction entries generalizing total with
  | nil => simp [combineLoop, includedFiles, hitsCap]
  | cons e rest ih =>
    obtain ⟨fn, oc, b⟩ := e
    match oc, b with
    | none, b =>
      refine ⟨(ih total).1, fun h => (ih total).2.1 (by simpa [includedFiles] using h), ?_⟩
      intro p hp
      have := (ih total).2.2 p (by simpa [includedFiles] using hp)
      exact ⟨List.mem_cons.mpr (Or.inr this.1), this.2⟩
    | some c, false =>
      refine ⟨(ih total).1, fun h => (ih total).2.1 (by simpa [includedFiles] using h), ?_⟩
      intro p hp
      have := (ih total).2.2 p (by simpa [includedFiles] using hp)
      exact ⟨List.mem_cons.mpr (Or.inr this.1), this.2⟩
    | some c, true =>
      by_cases hc : c ≠ ""
      · by_cases hcap : total > MAX_TOTAL_CHARS
        · simp [combineLoop, includedFiles, hitsCap, hc, hcap]
        · have ihr := ih (total + c.length)
          refine ⟨?_, ?_, ?_⟩
          · simp only [combineLoop, includedFiles, hitsCap, if_pos hc, if_neg hcap,
              ihr.1, List.map_cons, List.cons_append]
          · intro _
            simp only [includedFiles, if_pos hc, if_neg hcap]
            by_cases hrest : includedFiles rest (total + c.length) = []
            · simp [hrest]
              omega
            · rw [List.dropLast_cons_of_ne_nil hrest]
              have := ihr.2.1 hrest
              simp only [List.map_cons, List.sum_cons]
              omega
          · intro p hp
            simp only [includedFiles, if_pos hc, if_neg hcap] at hp
            rcases List.mem_cons.mp hp with h | h
            · subst h
              exact ⟨List.mem_cons_self _ _, hc⟩
            · have := ihr.2.2 p h
              exact ⟨List.mem_cons.mpr (Or.inr this.1), this.2⟩
      · push_neg at hc
        subst hc
        refine ⟨?_, fun h => (ih total).2.1 (by simpa [includedFiles] using h), ?_⟩
        · simp [combineLoop, includedFiles, hitsCap, (ih total).1]
        · intro p hp
          have := (ih total).2.2 p (by simpa [includedFiles] using hp)
          exact ⟨List.mem_cons.mpr (Or.inr this.1), this.2⟩

/-- Witness for `combineLoop_budget` at a concrete entry list. -/
theorem combineLoop_budget_witness :
    combineLoop [("README.md", (some "abc", true))] 0
      = (includedFiles [("README.md", (some "abc", true))] 0).map
          (fun p => fileSection p.1 p.2)
        ++ (if hitsCap [("README.md", (some "abc", true))] 0 then [cropNotice] else [])
    ∧ 0 + (((includedFiles [("README.md", (some "abc", true))] 0).dropLast.map
        (fun p => p.2.length)).sum) ≤ MAX_TOTAL_CHARS
    ∧ (("README.md", (some "abc", true)) ∈ [("README.md", (some "abc", true))]
        ∧ "abc" ≠ "") := by
  obtain ⟨h1, h2, h3⟩ := combineLoop_budget [("README.md", (some "abc", true))] 0
  exact ⟨h1, h2 (by decide), by
    simpa using h3 ("README.md", "abc") (by decide)⟩

theorem bigContent_length : bigContent.length = 100001 := by
  rw [show bigContent.length = (List.replicate 100001 'a').length from rfl,
    List.length_replicate]

/-- C2 (counterexample): the assembled document *can* exceed
`MAX_TOTAL_CHARS`: the budget check compares the running total accumulated
before the file, so a single oversized file (here 100001 characters) is
appended in full and the document ends up longer than 100000 characters, with
`ok=True`. -/
theorem get_repo_context_budget_exceeded :
    (get_repo_context (.ok (.str "T")) (some ["README.md"], true)
      (fun _ => (some bigContent, true))).2 = true
    ∧ MAX_TOTAL_CHARS <
        (get_repo_context (.ok (.str "T")) (some ["README.md"], true)
          (fun _ => (some bigContent, true))).1.length := by
  have hdoc : (get_repo_context (.ok (.str "T")) (some ["README.md"], true)
      (fun _ => (some bigContent, true))).1
      = "T\n" ++ "\n" ++ fileSection "README.md" bigContent := rfl
  refine ⟨rfl, ?_⟩
  rw [hdoc, fileSection]
  simp only [String.length_append]
  rw [show ("T\n").length = 2 from rfl,
    show ("\n").length = 1 from rfl,
    show sepLine.length = 48 from rfl,
    show ("\nFILE: ").length = 7 from rfl,
    show ("README.md").length = 9 from rfl,
    bigContent_length]
  norm_num [MAX_TOTAL_CHARS]

theorem combineLoop_all_within (fetch : String → Option String × Bool) :
    ∀ (files : List String) (total : Nat),
    (∀ f ∈ files, ∀ c, fetch f = (some c, true) → c ≠ "") →
    total + (files.filterMap
        (fun f => match fetch f with
          | (some c, true) => some c.length
          | _ => none)).sum ≤ MAX_TOTAL_CHARS →
    combineLoop (files.zip (files.map fetch)) total
      = files.filterMap
          (fun f => match fetch f with
            | (some c, true) => some (fileSection f c)
            | _ => none) := by
  intro files
  induction files with
  | nil => intro total _ _; simp [combineLoop]
  | cons f fs ih =>
    intro total hne hbudget
    simp only [List.map_cons, List.zip_cons_cons, List.filterMap_cons] at *
    match hf : fetch f with
    | (some c, true) =>
      have hc : c ≠ "" := hne f (List.mem_cons_self f fs) c hf
      rw [hf] at hbudget
      simp only [] at hbudget ⊢
      simp only [List.sum_cons] at hbudget
      rw [combineLoop_cons_some_true]
      rw [if_pos hc, if_neg (by omega)]
      rw [ih (total + c.length)
        (fun g hg => hne g (List.mem_cons.mpr (Or.inr hg)))
        (by omega)]
    | (some c, false) =>
      rw [hf] at hbudget
      simp only [] at hbudget ⊢
      rw [combineLoop_cons_some_false]
      exact ih total (fun g hg => hne g (List.mem_cons.mpr (Or.inr hg))) hbudget
    | (none, b) =>
      rw [hf] at hbudget
      simp only [] at hbudget ⊢
      rw [combineLoop_cons_none]
      exact ih total (fun g hg => hne g (List.mem_cons.mpr (Or.inr hg))) hbudget

/-- C6 (amended): when the root listing succeeds, at least one important file
is present, every *successful* fetch returns non-empty content, and the
running total stays within the budget, the assembled parts are the tree part
followed by exactly one complete `FILE:` section per successful fetch, in the
selection-list order (`asyncio.gather` pairs results by index), with not-found
files silently skipped and overall `ok=True`. -/
theorem get_repo_context_partial_fetch (tree : String) (rl : List String)
    (fetch : String → Option String × Bool)
    (htree : ¬ tree.length > 10000)
    (hrl : rl ≠ [])
    (hfiles : IMPORTANT_FILES.filter (fun f => rl.contains f) ≠ [])
    (hne : ∀ f ∈ IMPORTANT_FILES.filter (fun f => rl.contains f),
      ∀ c, fetch f = (some c, true) → c ≠ "")
    (hbudget : tree.length
        + ((IMPORTANT_FILES.filter (fun f => rl.contains f)).filterMap
            (fun f => match fetch f with
              | (some c, true) => some c.length
              | _ => none)).sum ≤ MAX_TOTAL_CHARS) :
    get_repo_context_run (.ok (.str tree)) (some rl, true) fetch
      = .ok ((tree ++ "\n") ::
          (IMPORTANT_FILES.filter (fun f => rl.contains f)).filterMap
            (fun f => match fetch f with
              | (some c, true) => some (fileSection f c)
              | _ => none), true) := by
  rw [get_repo_context_run]
  simp only [cropTree, if_neg htree, pyAddNewline, pyLen]
  rw [if_neg (by simpa using hrl)]
  simp only [Option.getD_some]
  rw [if_neg hfiles]
  rw [combineLoop_all_within fetch _ tree.length hne hbudget]

/-- Witness for `get_repo_context_partial_fetch`: 5 selected files, 2
not-found, 3 successful — the document holds exactly the 3 sections, in
selection order, with `ok=True`. -/
theorem get_repo_context_partial_fetch_witness :
    get_repo_context_run (.ok (.str "T")) (some fiveFiles, true) partialFetch
      = .ok (["T\n", fileSection "README.md" "readme",
          fileSection "requirements.txt" "reqs",
          fileSection "Cargo.toml" "cargo"], true)
    ∧ (fiveFiles.countP fun f => (partialFetch f).2) = 3
    ∧ ([fileSection "README.md" "readme", fileSection "requirements.txt" "reqs",
        fileSection "Cargo.toml" "cargo"].countP isFileSection) = 3 := by
  refine ⟨?_, by decide, by decide⟩
  have h := get_repo_context_partial_fetch "T" fiveFiles partialFetch
    (by decide) (by decide) (by decide)
    (by
      intro f hf c hc
      intro hce
      subst hce
      fin_cases hf <;> simp [partialFetch] at hc)
    (by decide)
  rw [h]
  rfl

/-- C6 (counterexample): the claim as stated fails — with 5 selected files of
which 2 return not-found and 3 succeed, the document can contain only *2*
`FILE:` sections (not one per successful fetch, i.e. 3), because a successful
fetch with empty content is skipped like a failure.  `ok=True` still holds. -/
theorem get_repo_context_empty_success_miscount :
    get_repo_context_run (.ok (.str "T")) (some fiveFiles, true) partialFetchEmpty
      = .ok (["T\n", fileSection "README.md" "readme",
          fileSection "Cargo.toml" "cargo"], true)
    ∧ (fiveFiles.countP fun f => (partialFetchEmpty f).2) = 3
    ∧ (["T\n", fileSection "README.md" "readme",
        fileSection "Cargo.toml" "cargo"].countP isFileSection) = 2 := by
  refine ⟨rfl, by decide, by decide⟩

theorem combineLoop_congr_pointwise (fetch fetch' : String → Option String × Bool)
    (f₀ : String) (h₀ : fetch f₀ = (some "", true)) (h₀' : fetch' f₀ = (none, false))
    (hrest : ∀ f, f ≠ f₀ → fetch' f = fetch f) :
    ∀ (files : List String) (total : Nat),
    combineLoop (files.zip (files.map fetch)) total
      = combineLoop (files.zip (files.map fetch')) total := by
  intro files
  induction files with
  | nil => intro total; rfl
  | cons f fs ih =>
    intro total
    simp only [List.map_cons, List.zip_cons_cons]
    by_cases hf : f = f₀
    · subst hf
      rw [h₀, h₀']
      rw [combineLoop_cons_some_true, combineLoop_cons_none]
      rw [if_neg (by simp)]
      exact ih total
    · rw [hrest f hf]
      match hf' : fetch f with
      | (some c, true) =>
        rw [combineLoop_cons_some_true, combineLoop_cons_some_true]
        by_cases hc : c ≠ ""
        · rw [if_pos hc, if_pos hc]
          by_cases hcap : total > MAX_TOTAL_CHARS
          · rw [if_pos hcap, if_pos hcap]
          · rw [if_neg hcap, if_neg hcap, ih (total + c.length)]
        · rw [if_neg hc, if_neg hc]
          exact ih total
      | (some c, false) =>
        rw [combineLoop_cons_some_false, combineLoop_cons_some_false]
        exact ih total
      | (none, b) =>
        rw [combineLoop_cons_none, combineLoop_cons_none]
        exact ih total

/-- C10: a successfully fetched but empty file produces no output — swapping
its outcome for a not-found outcome leaves the assembled document and the
success flag unchanged, and at the combine-loop level an empty-but-present
entry can be dropped outright. -/
theorem get_repo_context_empty_file_skipped (treeOutcome : Except String PyVal)
    (rootListing : Option (List String) × Bool)
    (fetch fetch' : String → Option String × Bool) (f₀ : String)
    (h₀ : fetch f₀ = (some "", true)) (h₀' : fetch' f₀ = (none, false))
    (hrest : ∀ f, f ≠ f₀ → fetch' f = fetch f) :
    get_repo_context treeOutcome rootListing fetch
      = get_repo_context treeOutcome rootListing fetch'
    ∧ ∀ (l₁ l₂ : List (String × (Option String × Bool))) (t : Nat),
        combineLoop (l₁ ++ (f₀, (some "", true)) :: l₂) t
          = combineLoop (l₁ ++ l₂) t := by
  have hrun : get_repo_context_run treeOutcome rootListing fetch
      = get_repo_context_run treeOutcome rootListing fetch' := by
    rw [get_repo_context_run.eq_def, get_repo_context_run.eq_def]
    match treeOutcome with
    | .error e => rfl
    | .ok tree₀ =>
      simp only []
      match cropTree tree₀ with
      | .error e => rfl
      | .ok tree =>
        simp only []
        match pyAddNewline tree with
        | .error e => rfl
        | .ok part0 =>
          simp only []
          split
          · rfl
          · split
            · rfl
            · rw [combineLoop_congr_pointwise fetch fetch' f₀ h₀ h₀' hrest]
  constructor
  · unfold get_repo_context
    rw [hrun]
  · intro l₁ l₂ t
    induction l₁ generalizing t with
    | nil =>
      rw [List.nil_append, List.nil_append, combineLoop_cons_some_true]
      rw [if_neg (by simp)]
    | cons e l₁ ih =>
      obtain ⟨fn, oc, b⟩ := e
      match oc, b with
      | some c, true =>
        rw [List.cons_append, List.cons_append, combineLoop_cons_some_true,
          combineLoop_cons_some_true]
        by_cases hc : c ≠ ""
        · rw [if_pos hc, if_pos hc]
          by_cases hcap : t > MAX_TOTAL_CHARS
          · rw [if_pos hcap, if_pos hcap]
          · rw [if_neg hcap, if_neg hcap, ih (t + c.length)]
        · rw [if_neg hc, if_neg hc]
          exact ih t
      | some c, false =>
        rw [List.cons_append, List.cons_append, combineLoop_cons_some_false,
          combineLoop_cons_some_false]
        exact ih t
      | none, b =>
        rw [List.cons_append, List.cons_append, combineLoop_cons_none,
          combineLoop_cons_none]
        exact ih t

/-- Witness for `get_repo_context_empty_file_skipped` at a concrete input. -/
theorem get_repo_context_empty_file_skipped_witness :
    get_repo_context (.ok (.str "T")) (some ["README.md"], true) emptyFetch
      = get_repo_context (.ok (.str "T")) (some ["README.md"], true) notFoundFetch
    ∧ combineLoop ([("a", (some "x", true))]
        ++ ("README.md", (some "", true)) :: []) 0
      = combineLoop ([("a", (some "x", true))] ++ []) 0 := by
  obtain ⟨h1, h2⟩ := get_repo_context_empty_file_skipped (.ok (.str "T"))
    (some ["README.md"], true) emptyFetch notFoundFetch "README.md"
    (by decide) rfl
    (by intro f hf; simp [emptyFetch, notFoundFetch, hf])
  exact ⟨h1, h2 [("a", (some "x", true))] [] 0⟩

theorem dedupFirstLoop_sublist (l : List String) :
    ∀ seen, List.Sublist (dedupFirstLoop l seen) l := by
  induction l with
  | nil => intro seen; simp [dedupFirstLoop]
  | cons p rest ih =>
    intro seen
    rw [dedupFirstLoop]
    split
    · exact (ih seen).trans (List.sublist_cons_self p rest)
    · exact (ih (p :: seen)).cons₂ p

theorem dedupFirstLoop_nodup (l : List String) :
    ∀ seen, (dedupFirstLoop l seen).Nodup
      ∧ ∀ x ∈ dedupFirstLoop l seen, x ∉ seen := by
  induction l with
  | nil => intro seen; simp [dedupFirstLoop]
  | cons p rest ih =>
    intro seen
    rw [dedupFirstLoop]
    split
    · exact ⟨(ih seen).1, (ih seen).2⟩
    · refine ⟨List.nodup_cons.mpr ⟨fun hmem => ?_, (ih (p :: seen)).1⟩, ?_⟩
      · exact (ih (p :: seen)).2 p hmem (List.mem_cons_self p seen)
      · intro x hx
        rcases List.mem_cons.mp hx with h | h
        · subst h; assumption
        · intro hxs
          exact (ih (p :: seen)).2 x h (List.mem_cons.mpr (Or.inr hxs))

theorem dedupFirstLoop_complete (l : List String) :
    ∀ seen x, x ∈ l → x ∉ seen → x ∈ dedupFirstLoop l seen := by
  induction l with
  | nil => intro seen x hx; exact absurd hx (List.not_mem_nil x)
  | cons p rest ih =>
    intro seen x hx hxs
    rw [dedupFirstLoop]
    rcases List.mem_cons.mp hx with h | h
    · subst h
      rw [if_neg hxs]
      exact List.mem_cons_self x _
    · split
      · exact ih seen x h hxs
      · by_cases hxp : x = p
        · subst hxp; exact List.mem_cons_self x _
        · exact List.mem_cons.mpr (Or.inr (ih (p :: seen) x h
            (fun hmem => hxs (by
              rcases List.mem_cons.mp hmem with h' | h'
              · exact absurd h' hxp
              · exact h'))))

/-- C4: the final fetch list — static important-file matches followed by the
cleaned LLM paths, deduplicated (spec-modelled merge) — has no repeated path,
keeps the first occurrence of each path in the order of the merged sequence
(it is a sublist containing every merged path exactly once, before the cap),
and is at most 25 long. -/
theorem select_files_to_fetch_invariant (rootFiles llmRaw : List String)
    (repoPrefix : String) :
    (select_files_to_fetch rootFiles
        (get_files_to_explore_clean llmRaw repoPrefix)).Nodup
    ∧ (select_files_to_fetch rootFiles
        (get_files_to_explore_clean llmRaw repoPrefix)).length ≤ MAX_FILES_TO_FETCH
    ∧ List.Sublist
        (dedupFirst ((IMPORTANT_FILES.filter (fun f => rootFiles.contains f))
          ++ get_files_to_explore_clean llmRaw repoPrefix))
        ((IMPORTANT_FILES.filter (fun f => rootFiles.contains f))
          ++ get_files_to_explore_clean llmRaw repoPrefix)
    ∧ (∀ x, x ∈ dedupFirst ((IMPORTANT_FILES.filter (fun f => rootFiles.contains f))
        ++ get_files_to_explore_clean llmRaw repoPrefix)
        ↔ x ∈ (IMPORTANT_FILES.filter (fun f => rootFiles.contains f))
          ++ get_files_to_explore_clean llmRaw repoPrefix)
    ∧ select_files_to_fetch rootFiles (get_files_to_explore_clean llmRaw repoPrefix)
      = (dedupFirst ((IMPORTANT_FILES.filter (fun f => rootFiles.contains f))
          ++ get_files_to_explore_clean llmRaw repoPrefix)).take MAX_FILES_TO_FETCH := by
  set merged := (IMPORTANT_FILES.filter (fun f => rootFiles.contains f))
    ++ get_files_to_explore_clean llmRaw repoPrefix with hmerged
  refine ⟨?_, ?_, ?_, ?_, rfl⟩
  · exact ((dedupFirstLoop_nodup merged []).1).sublist (List.take_sublist _ _)
  · rw [select_files_to_fetch]
    exact (List.length_take_le _ _)
  · exact dedupFirstLoop_sublist merged []
  · intro x
    constructor
    · intro hx
      exact (dedupFirstLoop_sublist merged []).mem hx
    · intro hx
      exact dedupFirstLoop_complete merged [] x hx (List.not_mem_nil x)

end RepoExplainer
